import Mathlib

/-!
Verification of the query-synthesis pipeline of this repository
(src/rag_engine.py and src/streamlit_bot.py) against its specification.

The pipeline's pure core is shallowly embedded below:
- the response-sanitization step of `generate_sql_query`
  (`sql = re.sub(r"<3 backquotes>.*?<3 backquotes>", "", sql, flags=re.DOTALL).strip()`
  after an initial `.strip()`),
- the intent classifier `is_ranking_query`,
- the table selector `select_relevant_tables`,
- the answer renderer `frame_answer`.

Strings are modelled as Lean `String`/`List Char`; Python's whitespace set
for `str.strip`/`str.split` is the full 29-character `str.isspace` table;
`str.lower`/`str.upper` are modelled on the fragment the theorems evaluate
them on (exact on ASCII, with `str.upper` expanding U+00DF to `"SS"`);
Python sets of strings are modelled by `Finset String`.
-/

/-- The backquote character, code point 96. -/
def bq : Char := Char.ofNat 96

/-- The code points of the 29 characters Python's `str.strip()` and
`str.split()` treat as whitespace, i.e. exactly the characters for which
`str.isspace()` holds (CPython's whitespace table): tab through carriage
return, the file/group/record/unit separators U+001C-U+001F, space,
next line U+0085, no-break space U+00A0, ogham space mark U+1680, the
en-quad..hair-space range U+2000-U+200A, line separator U+2028, paragraph
separator U+2029, narrow no-break space U+202F, medium mathematical space
U+205F and ideographic space U+3000. -/
def pyWhitespaceCodes : List Nat :=
  [9, 10, 11, 12, 13, 28, 29, 30, 31, 32, 133, 160, 5760,
   8192, 8193, 8194, 8195, 8196, 8197, 8198, 8199, 8200, 8201, 8202,
   8232, 8233, 8239, 8287, 12288]

/-- Whitespace as recognised by Python's `str.strip()` and `str.split()`. -/
def wsChar (c : Char) : Bool := pyWhitespaceCodes.contains c.toNat

/-- Python `str.strip()` on a character list: drop whitespace from both ends. -/
def trimL (cs : List Char) : List Char :=
  ((cs.dropWhile wsChar).reverse.dropWhile wsChar).reverse

/-- Python `str.strip()` on strings. -/
def pyStrip (s : String) : String :=
  String.mk (trimL s.data)

/-- A fence marker: three consecutive backquotes. -/
def fenceMarker : List Char := [bq, bq, bq]

/-- Does the character list contain a fence marker (three consecutive
backquotes) anywhere? -/
def hasFence3 : List Char → Bool
  | a :: b :: c :: rest =>
    if a = bq && b = bq && c = bq then true else hasFence3 (b :: c :: rest)
  | _ => false

/-- Does the character list contain a complete fenced block: a fence marker
followed, disjointly, by another fence marker? -/
def hasBlock : List Char → Bool
  | a :: b :: c :: rest =>
    if a = bq && b = bq && c = bq then hasFence3 rest else hasBlock (b :: c :: rest)
  | _ => false

/-- Scan for the first fence marker in the list and return the characters
after it, or `none` when there is no fence marker.  This is how the regex
engine finds the shortest closing fence for `.*?`. -/
def dropFenceClose : List Char → Option (List Char)
  | a :: b :: c :: rest =>
    if a = bq && b = bq && c = bq then some rest
    else dropFenceClose (b :: c :: rest)
  | _ => none

/-- Fuel-indexed left-to-right scan removing every region matched by the
pattern of `re.sub` in `generate_sql_query`: an opening fence marker, a
shortest (non-greedy, DOTALL) run of arbitrary characters, and a closing
fence marker; matches are removed together with their contents and do not
overlap.  Each step consumes at least one character, so fuel equal to the
length of the list suffices. -/
def stripFencesAux : Nat → List Char → List Char
  | 0, cs => cs
  | fuel + 1, cs =>
    match cs with
    | a :: b :: c :: body =>
      if a = bq && b = bq && c = bq then
        match dropFenceClose body with
        | some after => stripFencesAux fuel after
        | none => cs
      else a :: stripFencesAux fuel (b :: c :: body)
    | _ => cs

/-- The fenced-block removal `re.sub(..., "", sql, flags=re.DOTALL)` of
`generate_sql_query` (src/rag_engine.py line 127, src/streamlit_bot.py
line 126). -/
def stripFences (cs : List Char) : List Char :=
  stripFencesAux cs.length cs

/-- The full sanitization step of `generate_sql_query`: first
`.strip()` of the model response, then fenced-block removal, then the
final `.strip()` (src/rag_engine.py lines 126-127). -/
def sanitizeL (cs : List Char) : List Char :=
  trimL (stripFences (trimL cs))

/-- String version of the sanitization step. -/
def sanitize (s : String) : String :=
  String.mk (sanitizeL s.data)

/-- Python's substring containment `needle in hay`. -/
def containsSub (needle : List Char) : List Char → Bool
  | [] => needle.isPrefixOf []
  | c :: rest => needle.isPrefixOf (c :: rest) || containsSub needle rest

/-! ### Table selection (`select_relevant_tables`, src/rag_engine.py lines 59-88) -/

/-- The eszett character U+00DF, whose Python `str.upper()` image is the
two-character string `"SS"`. -/
def eszett : Char := Char.ofNat 223

/-- Python `str.lower()` on a character list, on the fragment this
development evaluates it on: the basic-latin mapping, which agrees with
Python exactly on the ASCII range (and on characters such as U+00DF that
Python's `lower()` fixes).  Python's full Unicode `lower()` differs on
other non-ASCII letters; the theorems below either do not depend on the
particular character mapping or restrict their quantifiers to the ASCII
range where this fragment is exact. -/
def lowerL (cs : List Char) : List Char := cs.map Char.toLower

/-- Python `str.upper()` on one character, on the fragment this
development evaluates it on: exact on the ASCII range (basic-latin
mapping) and on U+00DF, which Python expands to the two-character string
`"SS"`; identity on the remaining characters, where Python's full Unicode
`upper()` may differ.  The case-insensitivity theorem below quantifies
only over ASCII questions and the counterexample evaluates only U+00DF
and ASCII, so within their scope this agrees with Python. -/
def upperChar (c : Char) : List Char :=
  if c = eszett then ['S', 'S'] else [c.toUpper]

/-- Python `str.upper()` on a character list: character-wise upper-casing,
where a single character may map to several (see `upperChar`). -/
def upperL (cs : List Char) : List Char := (cs.map upperChar).flatten

/-- Python `str.lower()` on strings (see `lowerL` for the modelled
fragment). -/
def pyLower (s : String) : String := String.mk (lowerL s.data)

/-- Python `str.upper()` on strings (see `upperChar` for the modelled
fragment). -/
def pyUpper (s : String) : String := String.mk (upperL s.data)

/-- Helper for Python `str.split()` with no arguments: accumulate the
current word (reversed) and cut at whitespace runs, discarding empty
words. -/
def splitWsAux : List Char → List Char → List (List Char)
  | acc, [] => if acc = [] then [] else [acc.reverse]
  | acc, c :: rest =>
    if wsChar c then
      if acc = [] then splitWsAux [] rest else acc.reverse :: splitWsAux [] rest
    else splitWsAux (c :: acc) rest

/-- Python `str.split()` with no arguments: the whitespace-delimited words
of the string. -/
def pyWords (s : String) : List String := (splitWsAux [] s.data).map String.mk

/-- One entry of a table's `columns` metadata list: either a dict carrying
a `name` (and possibly a `type`), a bare string, or anything else, which
`select_relevant_tables` skips with a warning. -/
inductive ColumnEntry where
  | named (colName : String) (colType : Option String) : ColumnEntry
  | bare (s : String) : ColumnEntry
  | malformed : ColumnEntry
deriving DecidableEq

/-- One table record of `TABLE_METADATA`: the fields read by the pipeline,
with `table.get("table_name", "")` and `table.get("description", "")`
already coerced to strings. -/
structure TableMeta where
  table_name : String
  description : String
  columns : List ColumnEntry
deriving DecidableEq

/-- The lowered column names collected by the loop over `columns` in
`select_relevant_tables`: dict entries with a `name` key contribute
`c["name"].lower()`, string entries contribute `c.lower()`, malformed
entries are skipped (only logged). -/
def columnKeywords (t : TableMeta) : List String :=
  t.columns.filterMap fun ce =>
    match ce with
    | ColumnEntry.named n _ => some (pyLower n)
    | ColumnEntry.bare s => some (pyLower s)
    | ColumnEntry.malformed => none

/-- `keywords = set(table_name.split() + description.split() + columns)`
with `table_name` and `description` already lowered. -/
def keywords (t : TableMeta) : Finset String :=
  (pyWords (pyLower t.table_name) ++ pyWords (pyLower t.description) ++ columnKeywords t).toFinset

/-- `query_words = set(query.lower().split())`. -/
def queryWords (q : String) : Finset String := (pyWords (pyLower q)).toFinset

/-- `score = len(query_words.intersection(keywords))`. -/
def tableScore (qw : Finset String) (t : TableMeta) : Nat :=
  (qw ∩ keywords t).card

/-- Stable descending insertion by first component: the new pair goes in
front of the first already-placed pair whose score is less than or equal
to its own, so among equal scores earlier pairs stay first. -/
def insertDesc (p : Nat × TableMeta) : List (Nat × TableMeta) → List (Nat × TableMeta)
  | [] => [p]
  | q :: rest => if q.1 ≤ p.1 then p :: q :: rest else q :: insertDesc p rest

/-- Stable sort of score-table pairs by descending score, modelling
`scored.sort(key=lambda x: x[0], reverse=True)` (Python's sort is stable
and `reverse=True` keeps equal elements in list order). -/
def sortDesc : List (Nat × TableMeta) → List (Nat × TableMeta)
  | [] => []
  | p :: rest => insertDesc p (sortDesc rest)

/-- The `scored` list built by the loop of `select_relevant_tables`: the
pair `(score, table)` for each table whose score is positive, in metadata
order. -/
def scoredTables (qw : Finset String) (metadata : List TableMeta) : List (Nat × TableMeta) :=
  metadata.filterMap fun t =>
    if 0 < tableScore qw t then some (tableScore qw t, t) else none

/-- `select_relevant_tables` (src/rag_engine.py lines 59-88,
src/streamlit_bot.py lines 61-88): score every table, keep positive
scores, fall back to the first three tables when nothing scores, else
sort by descending score and return the top three tables. -/
def select_relevant_tables (metadata : List TableMeta) (query : String) : List TableMeta :=
  if scoredTables (queryWords query) metadata = [] then metadata.take 3
  else ((sortDesc (scoredTables (queryWords query) metadata)).take 3).map Prod.snd


/-! ### Intent classification and answer rendering
(`is_ranking_query`, src/rag_engine.py lines 49-54; `frame_answer`,
src/rag_engine.py lines 159-170, src/streamlit_bot.py lines 157-168) -/

/-- The fixed lexicon of ranking terms of `is_ranking_query`. -/
def rankingKeywords : List String :=
  ["top", "highest", "lowest", "most", "least", "maximum", "minimum", "rank", "order"]

/-- `is_ranking_query`: does the lowered question contain any ranking
keyword as a substring (`k in query.lower()`)? -/
def is_ranking_query (q : String) : Bool :=
  rankingKeywords.any fun k => containsSub k.data (lowerL q.data)

/-- One rendered row of `frame_answer`:
`", ".join(f"{c}: {v}" for c, v in zip(cols, row))`, each value modelled
by its final formatted string. -/
def renderLine (cols row : List String) : String :=
  String.intercalate ", " ((cols.zip row).map fun p => p.1 ++ ": " ++ p.2)

/-- The line contributed by the row with 1-based index `i`:
`f"Rank {i}: {line}" if ranking else line`. -/
def rankedLine (ranking : Bool) (cols : List String) (i : Nat) (r : List String) : String :=
  if ranking then "Rank " ++ toString i ++ ": " ++ renderLine cols r
  else renderLine cols r

/-- The text accumulated by the `for i, row in enumerate(rows, 1)` loop of
`frame_answer`, starting at index `i`: each row contributes its (possibly
rank-prefixed) line followed by a newline. -/
def answerTextAux (ranking : Bool) (cols : List String) : Nat → List (List String) → String
  | _, [] => ""
  | i, r :: rs => rankedLine ranking cols i r ++ "\n" ++ answerTextAux ranking cols (i + 1) rs

/-- `frame_answer`: the fixed sentinel on an empty row set, otherwise the
accumulated lines with the final `.strip()`. -/
def frame_answer (query : String) (rows : List (List String)) (cols : List String) : String :=
  if rows = [] then "No results found."
  else pyStrip (answerTextAux (is_ranking_query query) cols 1 rows)

/-- The individual lines built by the loop of `frame_answer`, one per row,
before the newlines are appended. -/
def answerLinesAux (ranking : Bool) (cols : List String) : Nat → List (List String) → List String
  | _, [] => []
  | i, r :: rs => rankedLine ranking cols i r :: answerLinesAux ranking cols (i + 1) rs

/-- The lines of the rendered answer for a question, row set and column
set. -/
def answerLines (query : String) (rows : List (List String)) (cols : List String) : List String :=
  answerLinesAux (is_ranking_query query) cols 1 rows

/-- Join lines with a newline separator and no trailing newline. -/
def joinLines : List String → String
  | [] => ""
  | [l] => l
  | l :: ls => l ++ "\n" ++ joinLines ls

/-- Python `s.split("\n")` on a character list: always at least one piece,
one more piece per newline character. -/
def splitOnNl : List Char → List (List Char)
  | [] => [[]]
  | c :: rest =>
    if c = '\n' then [] :: splitOnNl rest
    else
      match splitOnNl rest with
      | w :: ws => (c :: w) :: ws
      | [] => [[c]]

/-- The number of lines of a string in Python terms:
`len(s.split("\n"))`. -/
def numLines (s : String) : Nat := (splitOnNl s.data).length

/-- The string is non-empty and its first character is not whitespace. -/
def headNonWs (s : String) : Bool :=
  match s.data with
  | [] => false
  | c :: _ => !wsChar c

/-- The string is non-empty and its last character is not whitespace. -/
def lastNonWs (s : String) : Bool :=
  match s.data.reverse with
  | [] => false
  | c :: _ => !wsChar c

/-- A concrete `orders` table used to evaluate the selection theorems. -/
def ordersT : TableMeta :=
  { table_name := "orders", description := "customer orders",
    columns := [ColumnEntry.bare "id", ColumnEntry.named "amount" (some "int")] }

/-- A concrete `users` table used to evaluate the selection theorems. -/
def usersT : TableMeta :=
  { table_name := "users", description := "site users",
    columns := [ColumnEntry.bare "id", ColumnEntry.bare "email"] }

/-- A table whose only keyword is the ASCII word `ss`, used to exhibit
the Unicode-casing counterexample to claim C8. -/
def tss : TableMeta :=
  { table_name := "ss", description := "", columns := [] }

/-- A table whose only keyword is the single character U+00DF, used to
exhibit the Unicode-casing counterexample to claim C8. -/
def tsz : TableMeta :=
  { table_name := String.mk [eszett], description := "", columns := [] }

/-- Does the list start with two backquotes? -/
def startsBB : List Char → Prop
  | a :: b :: _ => a = bq ∧ b = bq
  | _ => False

/-- The first element, when there is one, does not satisfy the predicate. -/
def headFails (p : Char → Bool) (l : List Char) : Prop :=
  ∀ c r, l = c :: r → p c = false

/-! ### Shape equations (all definitional) -/

theorem hasFence3_nil : hasFence3 [] = false := rfl

theorem hasFence3_one (a : Char) : hasFence3 [a] = false := rfl

theorem hasFence3_two (a b : Char) : hasFence3 [a, b] = false := rfl

theorem hasFence3_cons3 (a b c : Char) (r : List Char) :
    hasFence3 (a :: b :: c :: r) =
      if a = bq && b = bq && c = bq then true else hasFence3 (b :: c :: r) := rfl

theorem hasBlock_nil : hasBlock [] = false := rfl

theorem hasBlock_one (a : Char) : hasBlock [a] = false := rfl

theorem hasBlock_two (a b : Char) : hasBlock [a, b] = false := rfl

theorem hasBlock_cons3 (a b c : Char) (r : List Char) :
    hasBlock (a :: b :: c :: r) =
      if a = bq && b = bq && c = bq then hasFence3 r else hasBlock (b :: c :: r) := rfl

theorem dropFenceClose_nil : dropFenceClose [] = none := rfl

theorem dropFenceClose_one (a : Char) : dropFenceClose [a] = none := rfl

theorem dropFenceClose_two (a b : Char) : dropFenceClose [a, b] = none := rfl

theorem dropFenceClose_cons3 (a b c : Char) (r : List Char) :
    dropFenceClose (a :: b :: c :: r) =
      if a = bq && b = bq && c = bq then some r else dropFenceClose (b :: c :: r) := rfl

/-! ### Fence lemmas -/

theorem hasFence3_cons (c : Char) (t : List Char) (h : hasFence3 t = true) :
    hasFence3 (c :: t) = true := by
  match t with
  | [] => simp [hasFence3_nil] at h
  | [a] => simp [hasFence3_one] at h
  | [a, b] => simp [hasFence3_two] at h
  | a :: b :: d :: r =>
    rw [hasFence3_cons3]
    split
    · rfl
    · exact h

theorem hasBlock_hasFence3 (l : List Char) (h : hasBlock l = true) :
    hasFence3 l = true := by
  induction l using hasBlock.induct with
  | case1 a b c rest hc =>
    rw [hasFence3_cons3, if_pos hc]
  | case2 a b c rest hc ih =>
    rw [hasBlock_cons3, if_neg hc] at h
    rw [hasFence3_cons3, if_neg hc]
    exact ih h
  | case3 t ht =>
    rcases t with _ | ⟨a, _ | ⟨b, _ | ⟨c, r⟩⟩⟩
    · simp [hasBlock_nil] at h
    · simp [hasBlock_one] at h
    · simp [hasBlock_two] at h
    · exact absurd rfl (fun he => (ht a b c r he).elim)

theorem hasBlock_cons (c : Char) (t : List Char) (h : hasBlock t = true) :
    hasBlock (c :: t) = true := by
  match t with
  | [] => simp [hasBlock_nil] at h
  | [a] => simp [hasBlock_one] at h
  | [a, b] => simp [hasBlock_two] at h
  | a :: b :: d :: r =>
    rw [hasBlock_cons3]
    split
    · rename_i hc
      simp only [Bool.and_eq_true, decide_eq_true_eq] at hc
      obtain ⟨⟨hcq, haq⟩, hbq⟩ := hc
      subst haq hbq
      rw [hasBlock_cons3] at h
      by_cases hd : d = bq
      · subst hd
        simp only [decide_True, Bool.and_self, if_true] at h
        exact hasFence3_cons _ _ h
      · rw [if_neg (by simp [hd])] at h
        have h3 := hasBlock_hasFence3 _ h
        rcases r with _ | ⟨e, r'⟩
        · simp [hasFence3_nil, hasFence3_one, hasFence3_two, hd] at h3
        · rw [hasFence3_cons3, if_neg (by simp [hd])] at h3
          exact h3
    · exact h

theorem hasFence3_iff (l : List Char) :
    hasFence3 l = true ↔ ∃ x y, l = x ++ fenceMarker ++ y := by
  constructor
  · intro h
    induction l using hasFence3.induct with
    | case1 a b c rest hc =>
      simp only [Bool.and_eq_true, decide_eq_true_eq] at hc
      obtain ⟨⟨ha, hb⟩, hcc⟩ := hc
      exact ⟨[], rest, by simp [fenceMarker, ha, hb, hcc]⟩
    | case2 a b c rest hc ih =>
      rw [hasFence3_cons3, if_neg hc] at h
      obtain ⟨x, y, hxy⟩ := ih h
      exact ⟨a :: x, y, by simp [hxy]⟩
    | case3 t ht =>
      rcases t with _ | ⟨a, _ | ⟨b, _ | ⟨c, r⟩⟩⟩
      · simp [hasFence3_nil] at h
      · simp [hasFence3_one] at h
      · simp [hasFence3_two] at h
      · exact absurd rfl (fun he => (ht a b c r he).elim)
  · rintro ⟨x, y, rfl⟩
    induction x with
    | nil => simp [fenceMarker, hasFence3_cons3]
    | cons a x ih => exact hasFence3_cons _ _ ih

theorem hasBlock_iff (l : List Char) :
    hasBlock l = true ↔ ∃ x y z, l = x ++ fenceMarker ++ y ++ fenceMarker ++ z := by
  constructor
  · intro h
    induction l using hasBlock.induct with
    | case1 a b c rest hc =>
      rw [hasBlock_cons3, if_pos hc] at h
      simp only [Bool.and_eq_true, decide_eq_true_eq] at hc
      obtain ⟨⟨ha, hb⟩, hcc⟩ := hc
      obtain ⟨y, z, hyz⟩ := (hasFence3_iff rest).mp h
      exact ⟨[], y, z, by simp [fenceMarker, ha, hb, hcc, hyz]⟩
    | case2 a b c rest hc ih =>
      rw [hasBlock_cons3, if_neg hc] at h
      obtain ⟨x, y, z, hxyz⟩ := ih h
      exact ⟨a :: x, y, z, by simp [hxyz]⟩
    | case3 t ht =>
      rcases t with _ | ⟨a, _ | ⟨b, _ | ⟨c, r⟩⟩⟩
      · simp [hasBlock_nil] at h
      · simp [hasBlock_one] at h
      · simp [hasBlock_two] at h
      · exact absurd rfl (fun he => (ht a b c r he).elim)
  · rintro ⟨x, y, z, rfl⟩
    induction x with
    | nil =>
      simp only [List.nil_append]
      show hasBlock (bq :: bq :: bq :: (y ++ fenceMarker ++ z)) = true
      rw [hasBlock_cons3, if_pos (by simp)]
      exact (hasFence3_iff _).mpr ⟨y, z, rfl⟩
    | cons a x ih => exact hasBlock_cons _ _ ih

theorem dropFenceClose_none_iff (l : List Char) :
    dropFenceClose l = none ↔ hasFence3 l = false := by
  induction l using dropFenceClose.induct with
  | case1 a b c rest hc =>
    rw [dropFenceClose_cons3, if_pos hc, hasFence3_cons3, if_pos hc]
    simp
  | case2 a b c rest hc ih =>
    rw [dropFenceClose_cons3, if_neg hc, hasFence3_cons3, if_neg hc]
    exact ih
  | case3 t ht =>
    rcases t with _ | ⟨a, _ | ⟨b, _ | ⟨c, r⟩⟩⟩
    · simp [dropFenceClose_nil, hasFence3_nil]
    · simp [dropFenceClose_one, hasFence3_one]
    · simp [dropFenceClose_two, hasFence3_two]
    · exact absurd rfl (fun he => (ht a b c r he).elim)

theorem dropFenceClose_some_length (l r : List Char)
    (h : dropFenceClose l = some r) : r.length + 3 ≤ l.length := by
  induction l using dropFenceClose.induct with
  | case1 a b c rest hc =>
    rw [dropFenceClose_cons3, if_pos hc] at h
    obtain rfl : rest = r := by simpa using h
    simp
  | case2 a b c rest hc ih =>
    rw [dropFenceClose_cons3, if_neg hc] at h
    have := ih h
    simp only [List.length_cons] at this ⊢
    omega
  | case3 t ht =>
    rcases t with _ | ⟨a, _ | ⟨b, _ | ⟨c, rr⟩⟩⟩
    · simp [dropFenceClose_nil] at h
    · simp [dropFenceClose_one] at h
    · simp [dropFenceClose_two] at h
    · exact absurd rfl (fun he => (ht a b c rr he).elim)


theorem stripFencesAux_zero (cs : List Char) : stripFencesAux 0 cs = cs := rfl
theorem stripFencesAux_nil (fuel : Nat) : stripFencesAux (fuel + 1) [] = [] := rfl
theorem stripFencesAux_one (fuel : Nat) (a : Char) : stripFencesAux (fuel + 1) [a] = [a] := rfl
theorem stripFencesAux_two (fuel : Nat) (a b : Char) :
    stripFencesAux (fuel + 1) [a, b] = [a, b] := rfl
theorem stripFencesAux_cons3 (fuel : Nat) (a b c : Char) (body : List Char) :
    stripFencesAux (fuel + 1) (a :: b :: c :: body) =
      if a = bq && b = bq && c = bq then
        (match dropFenceClose body with
         | some after => stripFencesAux fuel after
         | none => a :: b :: c :: body)
      else a :: stripFencesAux fuel (b :: c :: body) := rfl

theorem stripFencesAux_head_ne (fuel : Nat) :
    ∀ c r, c ≠ bq → ∃ r', stripFencesAux fuel (c :: r) = c :: r' := by
  induction fuel with
  | zero => intro c r _; exact ⟨r, rfl⟩
  | succ fuel _ =>
    intro c r hc
    rcases r with _ | ⟨b, _ | ⟨d, body⟩⟩
    · exact ⟨[], rfl⟩
    · exact ⟨[b], rfl⟩
    · rw [stripFencesAux_cons3, if_neg (by simp [hc])]
      exact ⟨stripFencesAux fuel (b :: d :: body), rfl⟩

theorem stripFencesAux_not_startsBB (fuel : Nat) :
    ∀ cs, ¬ startsBB cs → ¬ startsBB (stripFencesAux fuel cs) := by
  induction fuel with
  | zero => intro cs h; exact h
  | succ fuel ih =>
    intro cs h
    rcases cs with _ | ⟨a, _ | ⟨b, _ | ⟨d, body⟩⟩⟩
    · rw [stripFencesAux_nil]; exact h
    · rw [stripFencesAux_one]; exact h
    · rw [stripFencesAux_two]; exact h
    · have hab : ¬(a = bq ∧ b = bq) := h
      rw [stripFencesAux_cons3, if_neg (by simp; tauto)]
      by_cases ha : a = bq
      · have hb : b ≠ bq := fun hb => hab ⟨ha, hb⟩
        obtain ⟨r', hr'⟩ := stripFencesAux_head_ne fuel b (d :: body) hb
        rw [hr']
        exact fun hs => hab ⟨hs.1, hs.2⟩
      · rcases hX : stripFencesAux fuel (b :: d :: body) with _ | ⟨x, _ | ⟨y, r'⟩⟩
        · exact fun hs => hs
        · exact fun hs => ha hs.1
        · exact fun hs => ha hs.1

theorem noBlock_aux : ∀ fuel cs, cs.length ≤ fuel →
    hasBlock (stripFencesAux fuel cs) = false := by
  intro fuel
  induction fuel with
  | zero =>
    intro cs hlen
    rw [List.length_eq_zero.mp (Nat.le_zero.mp hlen)]
    exact hasBlock_nil
  | succ fuel ih =>
    intro cs hlen
    rcases cs with _ | ⟨a, _ | ⟨b, _ | ⟨d, body⟩⟩⟩
    · rw [stripFencesAux_nil]; exact hasBlock_nil
    · rw [stripFencesAux_one]; exact hasBlock_one a
    · rw [stripFencesAux_two]; exact hasBlock_two a b
    · rw [stripFencesAux_cons3]
      by_cases hc : (a = bq && b = bq && d = bq) = true
      · rw [if_pos hc]
        rcases hdfc : dropFenceClose body with _ | after
        · simp only
          rw [hasBlock_cons3, if_pos hc]
          exact (dropFenceClose_none_iff body).mp hdfc
        · simp only
          have hlen2 := dropFenceClose_some_length body after hdfc
          simp only [List.length_cons] at hlen
          exact ih after (by omega)
      · rw [if_neg hc]
        have hX : hasBlock (stripFencesAux fuel (b :: d :: body)) = false := by
          apply ih
          simp only [List.length_cons] at hlen ⊢
          omega
        by_cases ha : a = bq
        · have hbd : ¬ startsBB (b :: d :: body) := by
            intro hs
            exact hc (by simp [ha, hs.1, hs.2])
          have hnb := stripFencesAux_not_startsBB fuel (b :: d :: body) hbd
          rcases hY : stripFencesAux fuel (b :: d :: body) with _ | ⟨x, _ | ⟨y, r'⟩⟩
          · exact hasBlock_one a
          · exact hasBlock_two a x
          · rw [hY] at hnb hX
            rw [hasBlock_cons3, if_neg (by simp; intro _ hx hy; exact hnb ⟨hx, hy⟩)]
            exact hX
        · rcases hY : stripFencesAux fuel (b :: d :: body) with _ | ⟨x, _ | ⟨y, r'⟩⟩
          · exact hasBlock_one a
          · exact hasBlock_two a x
          · rw [hY] at hX
            rw [hasBlock_cons3, if_neg (by simp [ha])]
            exact hX

/-! ### Whitespace-trim lemmas -/

theorem dropWhile_dropWhile (p : Char → Bool) (l : List Char) :
    (l.dropWhile p).dropWhile p = l.dropWhile p := by
  induction l with
  | nil => rfl
  | cons a l ih =>
    rw [List.dropWhile_cons]
    split
    · exact ih
    · rename_i h
      rw [List.dropWhile_cons, if_neg h]

theorem headFails_dropWhile (p : Char → Bool) (l : List Char) :
    headFails p (l.dropWhile p) := by
  induction l with
  | nil => intro c r h; simp at h
  | cons a l ih =>
    intro c r h
    rw [List.dropWhile_cons] at h
    split at h
    · exact ih c r h
    · rename_i hp
      cases h
      simpa using hp

theorem dropWhile_eq_self_of_headFails (p : Char → Bool) (l : List Char)
    (h : headFails p l) : l.dropWhile p = l := by
  cases l with
  | nil => rfl
  | cons a l => rw [List.dropWhile_cons, if_neg (by simp [h a l rfl])]

theorem headFails_of_append (p : Char → Bool) (X Y : List Char)
    (h : headFails p (X ++ Y)) : headFails p X := by
  intro c r hcr
  exact h c (r ++ Y) (by simp [hcr])

theorem trimL_decomp (cs : List Char) : ∃ a b, cs = a ++ trimL cs ++ b := by
  obtain ⟨a, ha⟩ := List.dropWhile_suffix (l := cs) wsChar
  obtain ⟨t, ht⟩ := List.dropWhile_suffix (l := (cs.dropWhile wsChar).reverse) wsChar
  refine ⟨a, t.reverse, ?_⟩
  have hu : cs.dropWhile wsChar = trimL cs ++ t.reverse := by
    have := congrArg List.reverse ht
    simpa [trimL, List.reverse_append] using this.symm
  rw [List.append_assoc, ← hu, ha]

theorem hasBlock_infix (t a b : List Char) (h : hasBlock t = true) :
    hasBlock (a ++ t ++ b) = true := by
  obtain ⟨x, y, z, rfl⟩ := (hasBlock_iff t).mp h
  refine (hasBlock_iff _).mpr ⟨a ++ x, y, z ++ b, by simp⟩

theorem hasBlock_trimL_false (cs : List Char) (h : hasBlock cs = false) :
    hasBlock (trimL cs) = false := by
  cases hb : hasBlock (trimL cs) with
  | false => rfl
  | true =>
    obtain ⟨a, b, hab⟩ := trimL_decomp cs
    rw [hab, hasBlock_infix _ _ _ hb] at h
    exact h

theorem trimL_idem (cs : List Char) : trimL (trimL cs) = trimL cs := by
  obtain ⟨t, ht⟩ := List.dropWhile_suffix (l := (cs.dropWhile wsChar).reverse) wsChar
  have hu : cs.dropWhile wsChar = trimL cs ++ t.reverse := by
    have := congrArg List.reverse ht
    simpa [trimL, List.reverse_append] using this.symm
  have hheadT : headFails wsChar (trimL cs) :=
    headFails_of_append wsChar _ t.reverse (hu ▸ headFails_dropWhile wsChar cs)
  have hstepA : (trimL cs).dropWhile wsChar = trimL cs :=
    dropWhile_eq_self_of_headFails wsChar _ hheadT
  have hrev : (trimL cs).reverse = (cs.dropWhile wsChar).reverse.dropWhile wsChar := by
    simp [trimL]
  show ((((trimL cs).dropWhile wsChar).reverse.dropWhile wsChar)).reverse = trimL cs
  rw [hstepA, hrev, dropWhile_dropWhile, ← hrev, List.reverse_reverse]

/-! ### Sanitization: no complete fenced block survives, and idempotence -/

theorem hasBlock_stripFences (cs : List Char) :
    hasBlock (stripFences cs) = false :=
  noBlock_aux cs.length cs le_rfl

theorem hasBlock_sanitizeL (cs : List Char) :
    hasBlock (sanitizeL cs) = false :=
  hasBlock_trimL_false _ (hasBlock_stripFences _)

theorem stripFencesAux_eq_self : ∀ fuel cs, hasBlock cs = false →
    stripFencesAux fuel cs = cs := by
  intro fuel
  induction fuel with
  | zero => intro cs _; rfl
  | succ fuel ih =>
    intro cs h
    rcases cs with _ | ⟨a, _ | ⟨b, _ | ⟨d, body⟩⟩⟩
    · exact stripFencesAux_nil fuel
    · exact stripFencesAux_one fuel a
    · exact stripFencesAux_two fuel a b
    · rw [stripFencesAux_cons3]
      rw [hasBlock_cons3] at h
      by_cases hc : (a = bq && b = bq && d = bq) = true
      · rw [if_pos hc] at h ⊢
        rw [(dropFenceClose_none_iff body).mpr h]
      · rw [if_neg hc] at h ⊢
        rw [ih (b :: d :: body) h]

theorem stripFences_eq_self (cs : List Char) (h : hasBlock cs = false) :
    stripFences cs = cs :=
  stripFencesAux_eq_self cs.length cs h

theorem sanitizeL_idem (cs : List Char) :
    sanitizeL (sanitizeL cs) = sanitizeL cs := by
  have htrim : trimL (sanitizeL cs) = sanitizeL cs := trimL_idem _
  show trimL (stripFences (trimL (sanitizeL cs))) = sanitizeL cs
  rw [htrim, stripFences_eq_self _ (hasBlock_sanitizeL cs), htrim]

/-! ### Claims C1, C2, C3 about the sanitization step -/

set_option maxHeartbeats 2000000 in
/-- Claim C1 (code bug): the spec's Scenario C requires that sanitizing the
raw model response consisting of a single fenced block containing
`SELECT 1;` yields `SELECT 1;`, but the code's
`re.sub` removes the whole fenced region including the query it contains,
so the sanitized result is the empty string.  This theorem evaluates the
embedded sanitization step at the failing input. -/
theorem c1_sanitize_fenced_select_is_empty :
    sanitize (String.mk (fenceMarker ++ "sql\nSELECT 1;\n".data ++ fenceMarker)) = "" := by
  decide

set_option maxHeartbeats 2000000 in
/-- Claim C2 (counterexample): a raw response consisting of a single
unpaired fence marker survives sanitization unchanged, so the sanitized
query can still contain a fence marker, refuting the claim that no
triple-backquote marker is ever propagated. -/
theorem c2_counterexample_lone_fence_survives :
    containsSub fenceMarker (sanitize (String.mk fenceMarker)).data = true := by
  decide

/-- Claim C2 (amended): for every raw backend response, the sanitized query
contains no complete fenced block, i.e. no fence marker that is followed,
disjointly, by another fence marker; only an unpaired fence marker can
survive sanitization. -/
theorem c2_sanitize_no_complete_block (s : String) :
    hasBlock (sanitize s).data = false :=
  hasBlock_sanitizeL s.data

theorem data_sanitize (s : String) : (sanitize s).data = sanitizeL s.data := rfl

/-- Claim C3: the sanitization step (code-fence removal followed by
whitespace trimming) is idempotent: sanitizing the result of sanitization
yields the same string. -/
theorem c3_sanitize_idempotent (s : String) :
    sanitize (sanitize s) = sanitize s := by
  apply String.ext
  rw [data_sanitize, data_sanitize]
  exact sanitizeL_idem s.data

/-! ### Case-insensitivity of Python basic-latin case mapping -/

theorem toNat_ofNat_valid (n : Nat) (h : n.isValidChar) : (Char.ofNat n).toNat = n := by
  rw [Char.ofNat, dif_pos h]
  simp [Char.ofNatAux, Char.toNat, UInt32.toNat]

theorem toLower_toUpper_eq (c : Char) : c.toUpper.toLower = c.toLower := by
  unfold Char.toUpper Char.toLower
  by_cases h : 97 ≤ c.toNat ∧ c.toNat ≤ 122
  · rw [if_pos h]
    have hval : (c.toNat - 32).isValidChar := by
      left
      omega
    have h1 : (Char.ofNat (c.toNat - 32)).toNat = c.toNat - 32 :=
      toNat_ofNat_valid _ hval
    rw [h1]
    rw [if_pos (by omega), if_neg (by omega)]
    have : c.toNat - 32 + 32 = c.toNat := by omega
    rw [this, Char.ofNat_toNat]
  · rw [if_neg h]

theorem mem_insertDesc (p x : Nat × TableMeta) (l : List (Nat × TableMeta)) :
    x ∈ insertDesc p l ↔ x = p ∨ x ∈ l := by
  induction l with
  | nil => simp [insertDesc]
  | cons q rest ih =>
    rw [insertDesc]
    split
    · simp [List.mem_cons]
    · simp only [List.mem_cons, ih]
      tauto

theorem mem_sortDesc (x : Nat × TableMeta) (l : List (Nat × TableMeta)) :
    x ∈ sortDesc l ↔ x ∈ l := by
  induction l with
  | nil => simp [sortDesc]
  | cons p rest ih =>
    rw [sortDesc, mem_insertDesc, ih]
    simp [List.mem_cons, eq_comm]

theorem pairwise_insertDesc (p : Nat × TableMeta) (l : List (Nat × TableMeta))
    (h : List.Pairwise (fun a b => b.1 ≤ a.1) l) :
    List.Pairwise (fun a b => b.1 ≤ a.1) (insertDesc p l) := by
  induction l with
  | nil => simp [insertDesc]
  | cons q rest ih =>
    rw [insertDesc]
    obtain ⟨hq, hrest⟩ := List.pairwise_cons.mp h
    split
    · rename_i hle
      apply List.pairwise_cons.mpr
      refine ⟨?_, h⟩
      intro y hy
      rcases List.mem_cons.mp hy with rfl | hy'
      · exact hle
      · exact le_trans (hq y hy') hle
    · rename_i hlt
      apply List.pairwise_cons.mpr
      refine ⟨?_, ih hrest⟩
      intro y hy
      rcases (mem_insertDesc p y rest).mp hy with rfl | hy'
      · omega
      · exact hq y hy'

theorem pairwise_sortDesc (l : List (Nat × TableMeta)) :
    List.Pairwise (fun a b => b.1 ≤ a.1) (sortDesc l) := by
  induction l with
  | nil => simp [sortDesc]
  | cons p rest ih => exact pairwise_insertDesc p _ ih

theorem filter_insertDesc (s : Nat) (p : Nat × TableMeta) (l : List (Nat × TableMeta)) :
    (insertDesc p l).filter (fun x => decide (x.1 = s)) =
      if p.1 = s then p :: l.filter (fun x => decide (x.1 = s))
      else l.filter (fun x => decide (x.1 = s)) := by
  induction l with
  | nil =>
    rw [insertDesc]
    by_cases hp : p.1 = s
    · simp [List.filter_cons, hp]
    · simp [List.filter_cons, hp]
  | cons q rest ih =>
    rw [insertDesc]
    split
    · rename_i hle
      rw [List.filter_cons]
      by_cases hp : p.1 = s
      · simp [hp]
      · simp [hp]
    · rename_i hgt
      rw [List.filter_cons, ih]
      by_cases hp : p.1 = s
      · have hq : ¬ q.1 = s := by omega
        simp [hp, hq, List.filter_cons]
      · by_cases hq : q.1 = s
        · simp [hp, hq, List.filter_cons]
        · simp [hp, hq, List.filter_cons]

theorem filter_sortDesc (s : Nat) (l : List (Nat × TableMeta)) :
    (sortDesc l).filter (fun x => decide (x.1 = s)) =
      l.filter (fun x => decide (x.1 = s)) := by
  induction l with
  | nil => rfl
  | cons p rest ih =>
    rw [sortDesc, filter_insertDesc, List.filter_cons]
    by_cases hp : p.1 = s
    · simp [hp, ih]
    · simp [hp, ih]

theorem scoredTables_eq_nil_iff (qw : Finset String) (m : List TableMeta) :
    scoredTables qw m = [] ↔ ∀ t ∈ m, tableScore qw t = 0 := by
  rw [scoredTables, List.filterMap_eq_nil_iff]
  constructor
  · intro h t ht
    have := h t ht
    by_cases hs : 0 < tableScore qw t
    · rw [if_pos hs] at this
      simp at this
    · omega
  · intro h t ht
    rw [if_neg (by rw [h t ht]; omega)]

theorem mem_scoredTables (qw : Finset String) (m : List TableMeta)
    (x : Nat × TableMeta) (hx : x ∈ scoredTables qw m) :
    x.2 ∈ m ∧ x.1 = tableScore qw x.2 ∧ 0 < x.1 := by
  rw [scoredTables, List.mem_filterMap] at hx
  obtain ⟨t, htm, hft⟩ := hx
  split at hft
  · rename_i hpos
    cases hft
    exact ⟨htm, rfl, hpos⟩
  · simp at hft

theorem filter_scoredTables (qw : Finset String) (m : List TableMeta)
    (s : Nat) (hs : 0 < s) :
    (scoredTables qw m).filter (fun x => decide (x.1 = s)) =
      (m.filter (fun t => decide (tableScore qw t = s))).map (fun t => (s, t)) := by
  induction m with
  | nil => rfl
  | cons t m' ih =>
    rw [scoredTables, List.filterMap_cons]
    rw [scoredTables] at ih
    by_cases hpos : 0 < tableScore qw t
    · rw [if_pos hpos]
      rw [List.filter_cons, List.filter_cons]
      by_cases hts : tableScore qw t = s
      · simp only [hts, decide_True, if_true, List.map_cons]
        rw [ih]
      · simp only [hts, decide_False, if_false]
        exact ih
    · rw [if_neg hpos]
      have hts : ¬ tableScore qw t = s := by omega
      rw [List.filter_cons]
      simp only [hts, decide_False, if_false]
      exact ih

theorem upperL_ascii (cs : List Char) (h : ∀ c ∈ cs, c.toNat ≤ 127) :
    upperL cs = cs.map Char.toUpper := by
  induction cs with
  | nil => rfl
  | cons c rest ih =>
    have hc : c.toNat ≤ 127 := h c (by simp)
    have hcz : ¬ c = eszett := by
      intro hce
      rw [hce] at hc
      exact absurd hc (by decide)
    show ((c :: rest).map upperChar).flatten = _
    rw [List.map_cons, List.flatten_cons, upperChar, if_neg hcz, List.map_cons,
      List.singleton_append]
    have hrest : upperL rest = rest.map Char.toUpper :=
      ih fun x hx => h x (List.mem_cons_of_mem c hx)
    rw [← hrest]
    rfl

theorem lowerL_map_toUpper (cs : List Char) :
    lowerL (cs.map Char.toUpper) = lowerL cs := by
  rw [lowerL, lowerL, List.map_map]
  exact List.map_congr_left fun c _ => toLower_toUpper_eq c

theorem data_pyUpper (s : String) : (pyUpper s).data = upperL s.data := rfl

theorem data_pyLower (s : String) : (pyLower s).data = lowerL s.data := rfl

theorem pyLower_pyUpper_ascii (s : String) (h : ∀ c ∈ s.data, c.toNat ≤ 127) :
    pyLower (pyUpper s) = pyLower s := by
  apply String.ext
  rw [data_pyLower, data_pyLower, data_pyUpper]
  rw [upperL_ascii s.data h, lowerL_map_toUpper]

theorem queryWords_pyUpper_ascii (q : String) (h : ∀ c ∈ q.data, c.toNat ≤ 127) :
    queryWords (pyUpper q) = queryWords q := by
  rw [queryWords, queryWords, pyLower_pyUpper_ascii q h]

set_option maxHeartbeats 2000000 in
/-- Claim C8 (counterexample): the question consisting of the single
character U+00DF refutes `select(Q) = select(Q.upper())` on the real
program: Python upper-cases U+00DF to `"SS"`, which after lowering
matches a table keyed `ss` instead of the table keyed by U+00DF, so the
two selections differ. -/
theorem c8_counterexample_eszett :
    select_relevant_tables [tss, tsz] (pyUpper (String.mk [eszett])) ≠
      select_relevant_tables [tss, tsz] (String.mk [eszett]) := by
  decide

/-- Claim C8 (amended): table selection is case-insensitive in the
question for every question whose characters are ASCII (where Python's
`str.upper()` is the basic-latin mapping and in particular expands no
character): selecting with the upper-cased question yields the same
tables as selecting with the question itself, because the question is
lowered before tokenization.  The restriction to ASCII questions is
forced by the U+00DF counterexample. -/
theorem c8_select_case_insensitive_ascii (m : List TableMeta) (q : String)
    (hq : ∀ c ∈ q.data, c.toNat ≤ 127) :
    select_relevant_tables m (pyUpper q) = select_relevant_tables m q := by
  rw [select_relevant_tables, select_relevant_tables, queryWords_pyUpper_ascii q hq]

set_option maxHeartbeats 2000000 in
/-- Witness for claim C8 at a concrete ASCII question and metadata
list. -/
theorem c8_witness :
    (∀ c ∈ ("Amount" : String).data, c.toNat ≤ 127) ∧
      select_relevant_tables [ordersT, usersT] (pyUpper "Amount") =
        select_relevant_tables [ordersT, usersT] "Amount" :=
  ⟨by decide, c8_select_case_insensitive_ascii [ordersT, usersT] "Amount" (by decide)⟩

/-- Claim C4: when every table of the metadata list scores 0 against the
question, `select_relevant_tables` returns exactly the first three tables
of the metadata list in their original order; in particular it returns
the empty sequence on an empty metadata list. -/
theorem c4_select_fallback (m : List TableMeta) (q : String)
    (h : ∀ t ∈ m, tableScore (queryWords q) t = 0) :
    select_relevant_tables m q = m.take 3 := by
  rw [select_relevant_tables, if_pos ((scoredTables_eq_nil_iff _ _).mpr h)]

/-- Claim C9: for every metadata list and question,
`select_relevant_tables` returns at most three tables, and every returned
table is an element of the metadata list. -/
theorem c9_select_bounded (m : List TableMeta) (q : String) :
    (select_relevant_tables m q).length ≤ 3 ∧
      ∀ t ∈ select_relevant_tables m q, t ∈ m := by
  rw [select_relevant_tables]
  split
  · refine ⟨?_, ?_⟩
    · simp [List.length_take]
    · intro t ht
      exact List.take_subset 3 m ht
  · refine ⟨?_, ?_⟩
    · rw [List.length_map]
      simp [List.length_take]
    · intro t ht
      rw [List.mem_map] at ht
      obtain ⟨x, hx, rfl⟩ := ht
      have hx' : x ∈ sortDesc (scoredTables (queryWords q) m) := List.take_subset _ _ hx
      have hx2 := (mem_sortDesc _ _).mp hx'
      exact (mem_scoredTables _ _ _ hx2).1

/-- Claim C7: when at least one table scores positively against the
question, every selected table has a positive score, the selected tables
are ordered by descending score, and for every score value the selected
tables with that score form a prefix of the metadata tables with that
score in original order (stable tie-break on load order). -/
theorem c7_select_positive_sorted_stable (m : List TableMeta) (q : String)
    (h : ∃ t ∈ m, 0 < tableScore (queryWords q) t) :
    (∀ t ∈ select_relevant_tables m q, 0 < tableScore (queryWords q) t) ∧
    List.Pairwise
      (fun a b => tableScore (queryWords q) b ≤ tableScore (queryWords q) a)
      (select_relevant_tables m q) ∧
    ∀ s : Nat, ∃ rest,
      m.filter (fun t => decide (tableScore (queryWords q) t = s)) =
        (select_relevant_tables m q).filter
          (fun t => decide (tableScore (queryWords q) t = s)) ++ rest := by
  have hne : scoredTables (queryWords q) m ≠ [] := by
    rw [Ne, scoredTables_eq_nil_iff]
    intro hall
    obtain ⟨t, htm, hpos⟩ := h
    rw [hall t htm] at hpos
    omega
  rw [select_relevant_tables, if_neg hne]
  set qw := queryWords q with hqw
  set S := sortDesc (scoredTables qw m) with hS
  have hmemS : ∀ x ∈ S.take 3, x.2 ∈ m ∧ x.1 = tableScore qw x.2 ∧ 0 < x.1 := by
    intro x hx
    exact mem_scoredTables qw m x ((mem_sortDesc x _).mp (List.take_subset 3 S hx))
  refine ⟨?_, ?_, ?_⟩
  · intro t ht
    rw [List.mem_map] at ht
    obtain ⟨x, hx, rfl⟩ := ht
    obtain ⟨_, hxs, hxp⟩ := hmemS x hx
    omega
  · have hpw : List.Pairwise (fun a b => b.1 ≤ a.1) (S.take 3) :=
      (pairwise_sortDesc _).sublist (List.take_sublist 3 S)
    rw [List.pairwise_map]
    refine hpw.imp_of_mem ?_
    intro a b ha hb hab
    obtain ⟨_, has, _⟩ := hmemS a ha
    obtain ⟨_, hbs, _⟩ := hmemS b hb
    omega
  · intro s
    by_cases hs : 0 < s
    · have hcongr :
          ((S.take 3).map Prod.snd).filter (fun t => decide (tableScore qw t = s)) =
            ((S.take 3).filter (fun x => decide (x.1 = s))).map Prod.snd := by
        rw [List.filter_map]
        congr 1
        apply List.filter_congr
        intro x hx
        obtain ⟨_, hxs, _⟩ := hmemS x hx
        simp [Function.comp, hxs]
      have hsplit :
          S.filter (fun x => decide (x.1 = s)) =
            (S.take 3).filter (fun x => decide (x.1 = s)) ++
              (S.drop 3).filter (fun x => decide (x.1 = s)) := by
        rw [← List.filter_append, List.take_append_drop]
      have hfull :
          S.filter (fun x => decide (x.1 = s)) =
            (m.filter (fun t => decide (tableScore qw t = s))).map (fun t => (s, t)) := by
        rw [hS, filter_sortDesc]
        exact filter_scoredTables qw m s hs
      refine ⟨((S.drop 3).filter (fun x => decide (x.1 = s))).map Prod.snd, ?_⟩
      have := congrArg (List.map Prod.snd) (hfull.symm.trans hsplit)
      rw [List.map_append] at this
      rw [hcongr]
      rw [← this]
      rw [List.map_map]
      simp
    · refine ⟨m.filter (fun t => decide (tableScore qw t = s)), ?_⟩
      have hnil :
          ((S.take 3).map Prod.snd).filter (fun t => decide (tableScore qw t = s)) = [] := by
        rw [List.filter_eq_nil_iff]
        intro t ht
        rw [List.mem_map] at ht
        obtain ⟨x, hx, rfl⟩ := ht
        obtain ⟨_, hxs, hxp⟩ := hmemS x hx
        simp only [decide_eq_true_eq]
        omega
      rw [hnil, List.nil_append]

set_option maxHeartbeats 2000000 in
/-- Witness for claim C4 at a concrete metadata list and question whose
scores are all zero. -/
theorem c4_witness :
    (∀ t ∈ [ordersT, usersT], tableScore (queryWords "zzz") t = 0) ∧
      select_relevant_tables [ordersT, usersT] "zzz" = [ordersT, usersT].take 3 :=
  ⟨by decide, c4_select_fallback [ordersT, usersT] "zzz" (by decide)⟩

set_option maxHeartbeats 2000000 in
/-- Witness for claim C7 at a concrete metadata list and question with a
positively scoring table. -/
theorem c7_witness :
    (∃ t ∈ [usersT, ordersT], 0 < tableScore (queryWords "amount") t) ∧
    ((∀ t ∈ select_relevant_tables [usersT, ordersT] "amount",
        0 < tableScore (queryWords "amount") t) ∧
      List.Pairwise
        (fun a b => tableScore (queryWords "amount") b ≤ tableScore (queryWords "amount") a)
        (select_relevant_tables [usersT, ordersT] "amount") ∧
      ∀ s : Nat, ∃ rest,
        ([usersT, ordersT]).filter
            (fun t => decide (tableScore (queryWords "amount") t = s)) =
          (select_relevant_tables [usersT, ordersT] "amount").filter
            (fun t => decide (tableScore (queryWords "amount") t = s)) ++ rest) :=
  ⟨by decide, c7_select_positive_sorted_stable [usersT, ordersT] "amount" (by decide)⟩

/-! ### Answer-renderer lemmas and claims C5, C6, C10 -/

theorem al_length (ranking : Bool) (cols : List String) :
    ∀ (rows : List (List String)) (i : Nat),
      (answerLinesAux ranking cols i rows).length = rows.length := by
  intro rows
  induction rows with
  | nil => intro i; rfl
  | cons r rs ih =>
    intro i
    rw [answerLinesAux, List.length_cons, List.length_cons, ih]

theorem al_get (ranking : Bool) (cols : List String) :
    ∀ (rows : List (List String)) (i j : Nat),
      (answerLinesAux ranking cols i rows).get? j =
        (rows.get? j).map (fun r => rankedLine ranking cols (i + j) r) := by
  intro rows
  induction rows with
  | nil => intro i j; rfl
  | cons r rs ih =>
    intro i j
    cases j with
    | zero => rfl
    | succ j =>
      rw [answerLinesAux]
      show (answerLinesAux ranking cols (i + 1) rs).get? j = _
      rw [ih (i + 1) j]
      show _ = (rs.get? j).map fun r => rankedLine ranking cols (i + (j + 1)) r
      have harith : i + 1 + j = i + (j + 1) := by omega
      rw [harith]

theorem at_eq_joinLines (ranking : Bool) (cols : List String) :
    ∀ (rows : List (List String)) (i : Nat), rows ≠ [] →
      answerTextAux ranking cols i rows =
        joinLines (answerLinesAux ranking cols i rows) ++ "\n" := by
  intro rows
  induction rows with
  | nil => intro i h; exact absurd rfl h
  | cons r rs ih =>
    intro i _
    cases rs with
    | nil =>
      show rankedLine ranking cols i r ++ "\n" ++ "" = joinLines [rankedLine ranking cols i r] ++ "\n"
      rw [String.append_empty, joinLines]
    | cons r2 rs2 =>
      have h1 : answerTextAux ranking cols i (r :: r2 :: rs2) =
          rankedLine ranking cols i r ++ "\n" ++ answerTextAux ranking cols (i + 1) (r2 :: rs2) := rfl
      have h2 : joinLines (answerLinesAux ranking cols i (r :: r2 :: rs2)) =
          rankedLine ranking cols i r ++ "\n" ++
            joinLines (answerLinesAux ranking cols (i + 1) (r2 :: rs2)) := rfl
      rw [h1, h2, ih (i + 1) (by simp), ← String.append_assoc]

theorem joinLines_head (l : String) (ls : List String) :
    ∃ w, (joinLines (l :: ls)).data = l.data ++ w := by
  cases ls with
  | nil => exact ⟨[], by simp [joinLines]⟩
  | cons l2 ls2 =>
    refine ⟨"\n".data ++ (joinLines (l2 :: ls2)).data, ?_⟩
    have h2 : joinLines (l :: l2 :: ls2) = l ++ "\n" ++ joinLines (l2 :: ls2) := rfl
    rw [h2, String.data_append, String.data_append, List.append_assoc]

theorem joinLines_getLast : ∀ (L : List String) (h : L ≠ []),
    ∃ w, (joinLines L).data = w ++ (L.getLast h).data := by
  intro L
  induction L with
  | nil => intro h; exact absurd rfl h
  | cons l ls ih =>
    intro h
    cases ls with
    | nil => exact ⟨[], by simp [joinLines]⟩
    | cons l2 ls2 =>
      obtain ⟨w, hw⟩ := ih (by simp)
      have h2 : joinLines (l :: l2 :: ls2) = l ++ "\n" ++ joinLines (l2 :: ls2) := rfl
      have h3 : (l :: l2 :: ls2).getLast h = (l2 :: ls2).getLast (by simp) :=
        List.getLast_cons (by simp)
      refine ⟨l.data ++ "\n".data ++ w, ?_⟩
      rw [h2, String.data_append, String.data_append, h3, hw]
      simp [List.append_assoc]

theorem trimL_id_of_ends (X : List Char) (c : Char) (t : List Char) (d : Char) (u : List Char)
    (hX : X = c :: t) (hrev : X.reverse = d :: u)
    (hc : wsChar c = false) (hd : wsChar d = false) :
    trimL (X ++ ['\n']) = X := by
  have hws : wsChar '\n' = true := rfl
  have hdw : (X ++ ['\n']).dropWhile wsChar = X ++ ['\n'] := by
    rw [hX]
    show List.dropWhile wsChar (c :: (t ++ ['\n'])) = c :: (t ++ ['\n'])
    rw [List.dropWhile_cons, if_neg (by simp [hc])]
  have hrev2 : (X ++ ['\n']).reverse = '\n' :: X.reverse := by
    rw [List.reverse_append]
    rfl
  rw [trimL, hdw, hrev2, List.dropWhile_cons, if_pos (by simp [hws]), hrev,
    List.dropWhile_cons, if_neg (by simp [hd]), ← hrev, List.reverse_reverse]

set_option maxHeartbeats 400000 in
/-- Claim C5 (counterexample): with a non-ranking question and two rows
that render to empty lines, the final `.strip()` of `frame_answer`
collapses the whole text, so the output has one line (in Python terms,
`len(out.split("\n")) == 1`) while there are two rows: line count does
not always equal row count. -/
theorem c5_counterexample_blank_lines :
    frame_answer "q" [[], []] ["c"] = "" ∧
      numLines (frame_answer "q" [[], []] ["c"]) ≠ ([[], []] : List (List String)).length := by
  decide

/-- Claim C5 (amended): for a non-empty row set, provided the first
rendered line does not start with a whitespace character and the last
rendered line does not end with one, `frame_answer` returns exactly the
newline-join of one line per row (line count equals row count), and line
`j` is the row's `column: value` join prefixed with `Rank <j+1>: ` exactly
when the ranking flag of the question is true.  The provisos are forced
by the final `.strip()` of `frame_answer`, which can swallow leading or
trailing whitespace-only lines (see the counterexample). -/
theorem c5_render_lines (q : String) (rows : List (List String)) (cols : List String)
    (hne : rows ≠ [])
    (h1 : headNonWs ((answerLines q rows cols).headD "") = true)
    (h2 : lastNonWs ((answerLines q rows cols).getLastD "") = true) :
    frame_answer q rows cols = joinLines (answerLines q rows cols) ∧
    (answerLines q rows cols).length = rows.length ∧
    ∀ j r, rows.get? j = some r →
      (answerLines q rows cols).get? j =
        some (if is_ranking_query q then
                "Rank " ++ toString (j + 1) ++ ": " ++ renderLine cols r
              else renderLine cols r) := by
  have hlen : (answerLines q rows cols).length = rows.length :=
    al_length (is_ranking_query q) cols rows 1
  have hlne : answerLines q rows cols ≠ [] := by
    intro hnil
    rw [hnil] at hlen
    exact hne (List.length_eq_zero.mp hlen.symm)
  refine ⟨?_, hlen, ?_⟩
  · -- frame_answer equals the joined lines
    obtain ⟨l0, ls, hL⟩ := List.exists_cons_of_ne_nil hlne
    have hhead : (answerLines q rows cols).headD "" = l0 := by rw [hL]; rfl
    rw [hhead] at h1
    have hlast : (answerLines q rows cols).getLastD "" =
        (answerLines q rows cols).getLast hlne := by
      rw [List.getLastD_eq_getLast?, List.getLast?_eq_getLast _ hlne]
      rfl
    rw [hlast] at h2
    set lastL := (answerLines q rows cols).getLast hlne with hlastL
    -- extract head and last characters
    rcases hd0 : l0.data with _ | ⟨c, t⟩
    · rw [headNonWs, hd0] at h1
      simp at h1
    rcases hdl : lastL.data.reverse with _ | ⟨d, u⟩
    · rw [lastNonWs, hdl] at h2
      simp at h2
    have hc : wsChar c = false := by
      rw [headNonWs, hd0] at h1
      simpa using h1
    have hdws : wsChar d = false := by
      rw [lastNonWs, hdl] at h2
      simpa using h2
    obtain ⟨w1, hw1⟩ := joinLines_head l0 ls
    obtain ⟨w2, hw2⟩ := joinLines_getLast (answerLines q rows cols) hlne
    have hXhead : (joinLines (answerLines q rows cols)).data = c :: (t ++ w1) := by
      rw [hL, hw1, hd0]
      rfl
    have hXrev : (joinLines (answerLines q rows cols)).data.reverse = d :: (u ++ w2.reverse) := by
      rw [hw2, List.reverse_append, hdl]
      rfl
    rw [frame_answer, if_neg hne]
    rw [at_eq_joinLines (is_ranking_query q) cols rows 1 hne]
    show String.mk (trimL ((joinLines (answerLinesAux (is_ranking_query q) cols 1 rows) ++ "\n").data)) = _
    rw [String.data_append]
    show String.mk (trimL ((joinLines (answerLines q rows cols)).data ++ ['\n'])) = _
    rw [trimL_id_of_ends _ c (t ++ w1) d (u ++ w2.reverse) hXhead hXrev hc hdws]
  · intro j r hr
    have := al_get (is_ranking_query q) cols rows 1 j
    rw [hr] at this
    show (answerLinesAux (is_ranking_query q) cols 1 rows).get? j = _
    rw [this, Option.map_some']
    have harith : 1 + j = j + 1 := by omega
    simp only [rankedLine, harith]

set_option maxHeartbeats 2000000 in
/-- Witness for claim C5 at a concrete ranking question, rows and
columns satisfying the whitespace provisos. -/
theorem c5_witness :
    (([["a"], ["b"]] : List (List String)) ≠ [] ∧
     headNonWs ((answerLines "top scores" [["a"], ["b"]] ["c"]).headD "") = true ∧
     lastNonWs ((answerLines "top scores" [["a"], ["b"]] ["c"]).getLastD "") = true) ∧
    (frame_answer "top scores" [["a"], ["b"]] ["c"] =
        joinLines (answerLines "top scores" [["a"], ["b"]] ["c"]) ∧
      (answerLines "top scores" [["a"], ["b"]] ["c"]).length =
        ([["a"], ["b"]] : List (List String)).length ∧
      ∀ j r, ([["a"], ["b"]] : List (List String)).get? j = some r →
        (answerLines "top scores" [["a"], ["b"]] ["c"]).get? j =
          some (if is_ranking_query "top scores" then
                  "Rank " ++ toString (j + 1) ++ ": " ++ renderLine ["c"] r
                else renderLine ["c"] r)) :=
  ⟨⟨by decide, by decide, by decide⟩,
   c5_render_lines "top scores" [["a"], ["b"]] ["c"] (by decide) (by decide) (by decide)⟩

theorem zip_take_take (cols row : List String) :
    cols.zip row = (cols.take row.length).zip (row.take cols.length) := by
  induction cols generalizing row with
  | nil => simp
  | cons c cs ih =>
    cases row with
    | nil => simp
    | cons v vs =>
      show (c, v) :: cs.zip vs =
        ((c :: cs).take (vs.length + 1)).zip ((v :: vs).take (cs.length + 1))
      rw [List.take_succ_cons, List.take_succ_cons, List.zip_cons_cons, ih]

/-- Claim C10: when a row's length differs from the number of column
names, the rendered line pairs exactly the first
`min(len(cols), len(row))` entries (the length of `zip`), silently
dropping the surplus values or column names: the line is unchanged when
both lists are truncated to that common length. -/
theorem c10_render_zip_min (cols row : List String) :
    (cols.zip row).length = min cols.length row.length ∧
    renderLine cols row =
      renderLine (cols.take row.length) (row.take cols.length) := by
  refine ⟨by simp [List.length_zip], ?_⟩
  rw [renderLine, renderLine, ← zip_take_take]

/-- Claim C6: for every question and column list, `frame_answer` on an
empty row sequence returns the fixed "no results" sentinel, regardless of
the ranking flag. -/
theorem c6_render_empty_rows (q : String) (cols : List String) :
    frame_answer q [] cols = "No results found." := rfl
